import Mathlib

/-!
Verification development for the `config-compare` tool (`config_compare.py`).

The tool merges N configuration sources (JSON / XML / freeform text) into a
single aggregator mapping canonical path labels to the set of sources present
at the path (`clusters`) and, per normalized value, the set of sources that
produced exactly that value (`values`).  The definitions below are a shallow
embedding of the Python source:

  * strings are embedded as `List Char`;
  * the mutable `compare_root` dictionary threaded through the recursion is
    embedded as an association list `Agg`, passed and returned explicitly;
  * fallible operations (uncaught `KeyError` / `TypeError` exceptions, and the
    uncaught `xmltodict.parse` failure) return `Except WErr Agg`;
  * the external parsers `xmltodict.parse` (no try/except around it in the
    source) and `json.loads` (wrapped in try/except) are parameters `PX`/`PJ`:
    the source only fixes what happens with their success or failure;
  * the mutually recursive walk `_do_branch` / `_do_file` is embedded as a
    single fuel-indexed interpreter `run` over a `WTask` type, structurally
    recursive on the fuel so that all definitions compute in the kernel.
    Exhausted fuel is a distinguished error, so every theorem about an
    `.ok` result speaks about a genuinely completed walk.
-/

/-! ## Character-level utilities (Python 2 regex/`str` semantics, ASCII) -/

/-- Python `\s` (no UNICODE flag): space, tab, newline, CR, vertical tab, form feed. -/
def isPySpace (c : Char) : Bool :=
  c == ' ' || c == '\t' || c == '\n' || c == '\r' || c == '\x0b' || c == '\x0c'

/-- Python `\w` (no UNICODE flag): `[a-zA-Z0-9_]`. -/
def isWordChar (c : Char) : Bool :=
  c.isAlphanum || c == '_'

/-- `re.sub("^\s*", '', s)` / `str.lstrip()`. -/
def lstripWs (l : List Char) : List Char := l.dropWhile isPySpace

/-- `re.sub("\s*$", '', s)` / `str.rstrip()`. -/
def rstripWs (l : List Char) : List Char := (l.reverse.dropWhile isPySpace).reverse

/-- strip both ends. -/
def trimWs (l : List Char) : List Char := rstripWs (lstripWs l)

/-- `re.sub("\t", ' ', s)`: each tab becomes one space. -/
def replaceTab (l : List Char) : List Char :=
  l.map fun c => if c == '\t' then ' ' else c

/-- `re.sub("\n", "\\\\n", s)`: each newline becomes the two characters `\` `n`. -/
def replaceNlEsc (l : List Char) : List Char :=
  l.foldr (fun c acc => if c == '\n' then '\\' :: 'n' :: acc else c :: acc) []

/-- `re.sub("\t", '', s)`: remove all tabs. -/
def removeTabs (l : List Char) : List Char := l.filter fun c => c != '\t'

/-- `re.sub("\s+", '', s)`: remove all whitespace. -/
def removeAllWs (l : List Char) : List Char := l.filter fun c => !(isPySpace c)

/-- Boolean list-prefix test. -/
def isPfx : List Char → List Char → Bool
  | [], _ => true
  | _ :: _, [] => false
  | a :: as, b :: bs => a == b && isPfx as bs

/-- Case-insensitive prefix test (for `re.IGNORECASE`). -/
def isPfxCI : List Char → List Char → Bool
  | [], _ => true
  | _ :: _, [] => false
  | a :: as, b :: bs => a.toLower == b.toLower && isPfxCI as bs

/-- Python `s.split(c)` on a single character: always at least one chunk. -/
def splitChar (c : Char) : List Char → List (List Char)
  | [] => [[]]
  | x :: rest =>
    if x == c then [] :: splitChar c rest
    else
      match splitChar c rest with
      | [] => [[x]]
      | h :: t => (x :: h) :: t

/-- Python `key.split(" : ")` (leftmost, non-overlapping). -/
def splitColon : List Char → List (List Char)
  | ' ' :: ':' :: ' ' :: rest => [] :: splitColon rest
  | c :: rest =>
    (match splitColon rest with
     | [] => [[c]]
     | h :: t => (c :: h) :: t)
  | [] => [[]]

/-- Python `value.split("\\n")`: split on the two-character sequence `\` `n`. -/
def splitBackslashN : List Char → List (List Char)
  | '\\' :: 'n' :: rest => [] :: splitBackslashN rest
  | c :: rest =>
    (match splitBackslashN rest with
     | [] => [[c]]
     | h :: t => (c :: h) :: t)
  | [] => [[]]

/-- Python `" : ".join(parts)`. -/
def joinColon : List (List Char) → List Char
  | [] => []
  | [x] => x
  | x :: y :: rest => x ++ ' ' :: ':' :: ' ' :: joinColon (y :: rest)

/-- `re.sub('\\\\\\n', '\n', s)`: a literal backslash immediately followed by a
newline is replaced by a plain newline ("make \\\n in configs to \n for clean
splitting", `_do_file`). -/
def subBackslashNl : List Char → List Char
  | '\\' :: '\n' :: rest => '\n' :: subBackslashNl rest
  | c :: rest => c :: subBackslashNl rest
  | [] => []

/-- `re.sub('==', 'equalsequals', line)` (leftmost, non-overlapping). -/
def subEq : List Char → List Char
  | '=' :: '=' :: rest =>
      'e' :: 'q' :: 'u' :: 'a' :: 'l' :: 's' :: 'e' :: 'q' :: 'u' :: 'a' :: 'l' :: 's' ::
        subEq rest
  | c :: rest => c :: subEq rest
  | [] => []

/-- `re.sub('equalsequals', '==', s)` (leftmost, non-overlapping). -/
def unsubEq : List Char → List Char
  | 'e' :: 'q' :: 'u' :: 'a' :: 'l' :: 's' :: 'e' :: 'q' :: 'u' :: 'a' :: 'l' :: 's' :: rest =>
      '=' :: '=' :: unsubEq rest
  | c :: rest => c :: unsubEq rest
  | [] => []

/-- Python `line.split("=", 1)`: split at the first `=` (assuming one exists). -/
def splitFirstEq : List Char → List Char × List Char
  | [] => ([], [])
  | '=' :: r => ([], r)
  | c :: r =>
    let p := splitFirstEq r
    (c :: p.1, p.2)

/-- `re.match("^\s*#", line)`: full-line comment test. -/
def isComment (l : List Char) : Bool := (lstripWs l).head? == some '#'

/-- `re.search("\\\\\s*$", line)`: the line ends in a backslash followed only by
whitespace. -/
def hasCont (l : List Char) : Bool := (rstripWs l).getLast? == some '\\'

/-- `re.sub("\\\\\s*$", '', line)` in the branch where `hasCont` holds. -/
def contStripped (l : List Char) : List Char := (rstripWs l).dropLast

/-- `re.sub("^\s*export\s*", '', line, flags=re.IGNORECASE)`, applied after the
line has already been left-stripped. -/
def stripExport (l : List Char) : List Char :=
  if isPfxCI ['e', 'x', 'p', 'o', 'r', 't'] l then lstripWs (l.drop 6) else l

/-- The XML sniff in `_do_branch`:
`re.match("\s*<\w+>", s) or re.match("\s*<\?xml version", s) or re.match("\s*<!--", s)`. -/
def sniffXml (s : List Char) : Bool :=
  let t := lstripWs s
  (match t with
   | '<' :: rest =>
     let w := rest.takeWhile isWordChar
     decide (w ≠ []) && ((rest.drop w.length).head? == some '>')
   | _ => false)
  || isPfx ("<?xml version".data) t
  || isPfx ("<!--".data) t

/-- Key cleanup used by the tree walker:
`re.sub("^\s+",''), re.sub("\s+$",''), re.sub("\t",'')`. -/
def cleanKey (k : List Char) : List Char := removeTabs (trimWs k)

/-- Lexicographic comparison of Python strings (code-point order). -/
def leChars : List Char → List Char → Bool
  | [], _ => true
  | _ :: _, [] => false
  | a :: as, b :: bs => if a == b then leChars as bs else decide (a < b)

/-- Insertion into a key-sorted association list (for Python `sorted(keys)`). -/
def insortEntry {β : Type} (x : List Char × β) : List (List Char × β) → List (List Char × β)
  | [] => [x]
  | y :: ys => if leChars x.1 y.1 then x :: y :: ys else y :: insortEntry x ys

/-- Python `sorted(d.keys())` iteration over an association list. -/
def sortEntries {β : Type} (l : List (List Char × β)) : List (List Char × β) :=
  l.foldr insortEntry []

/-- Insertion sort of a list of strings (for Python `sorted(config_details)`). -/
def insortStr (x : List Char) : List (List Char) → List (List Char)
  | [] => [x]
  | y :: ys => if leChars x y then x :: y :: ys else y :: insortStr x ys

def sortStrs (l : List (List Char)) : List (List Char) := l.foldr insortStr []

-- basic sanity checks of the embedding of the regex helpers
example : splitColon ("a : b".data) = ["a".data, "b".data] := by decide
example : splitChar ',' ("a,".data) = ["a".data, [] ] := by decide
example : subEq ("a==b=c".data) = "aequalsequalsb=c".data := by decide
example : unsubEq ("aequalsequalsb".data) = "a==b".data := by decide
example : sniffXml ("<a>x".data) = true := by decide
example : sniffXml ("<a b>".data) = false := by decide
example : sniffXml ("  <?xml version='1.0'?>".data) = true := by decide
example : hasCont ("a=1,\\ ".data) = true := by decide
example : hasCont ("a=1,".data) = false := by decide
example : subBackslashNl ("a\\\nb".data) = "a\nb".data := by decide
example : stripExport ("export PATH=1".data) = "PATH=1".data := by decide
example : stripExport ("EXPORTED=1".data) = "ED=1".data := by decide

/-! ## The aggregator (`compare_root`) -/

/-- One aggregator entry (`compare_root[label]`): the sources that have *any*
value at the path (`clusters`), and per normalized value the sources producing
exactly that value (`values`). -/
structure PathNode where
  clusters : List (List Char)
  values : List (List Char × List (List Char))
deriving DecidableEq, Repr

/-- The aggregator: an association list from path label to `PathNode`,
embedding the Python dictionary `compare_root`. -/
abbrev Agg := List (List Char × PathNode)

/-- First-match association-list lookup (Python `d.get(k)` / `d[k]`). -/
def alookup {β : Type} : List (List Char × β) → List Char → Option β
  | [], _ => none
  | (k, v) :: rest, l => if k = l then some v else alookup rest l

/-- Replace the value at the first occurrence of a key (in-place dict update). -/
def aupdate {β : Type} : List (List Char × β) → List Char → β → List (List Char × β)
  | [], _, _ => []
  | (k, v) :: rest, l, nv => if k = l then (k, nv) :: rest else (k, v) :: aupdate rest l nv

/-- `_chk_label(cmp_root, test_label, conf_file)`: create the node for the
label if absent, then record `conf_file` in its `clusters` (set semantics). -/
def chk_label (cmp_root : Agg) (test_label : List Char) (conf_file : List Char) : Agg :=
  match alookup cmp_root test_label with
  | none => cmp_root ++ [(test_label, ⟨[conf_file], []⟩)]
  | some nd =>
    if conf_file ∈ nd.clusters then cmp_root
    else aupdate cmp_root test_label { nd with clusters := nd.clusters ++ [conf_file] }

/-- Walk errors: exhausted fuel, an uncaught `KeyError` (`compare_root[label]`
with a missing or `None` label in `_do_plain_text`), an uncaught `TypeError`
(`re.match` applied to an `int` or `None` scalar), and an uncaught
`xmltodict.parse` failure. -/
inductive WErr where
  | fuel
  | keyError
  | typeError
  | xmlError
deriving DecidableEq, Repr

instance {ε α : Type} [DecidableEq ε] [DecidableEq α] : DecidableEq (Except ε α) := fun a b =>
  match a, b with
  | .error e, .error f =>
    if h : e = f then .isTrue (by rw [h])
    else .isFalse (fun hh => h (by cases hh; rfl))
  | .ok x, .ok y =>
    if h : x = y then .isTrue (by rw [h])
    else .isFalse (fun hh => h (by cases hh; rfl))
  | .error _, .ok _ => .isFalse (fun hh => Except.noConfusion hh)
  | .ok _, .error _ => .isFalse (fun hh => Except.noConfusion hh)

/-- The value normalization inside `_do_plain_text`: tabs to single spaces,
newlines to the literal two-character `\n`, then strip both ends. -/
def cleanVal (v : List Char) : List Char := trimWs (replaceNlEsc (replaceTab v))

/-- `_do_plain_text(blueprint, label, compare_root, blueprint_branch)`:
no-op on the empty string; otherwise normalize the value and insert
`blueprint` into `compare_root[label]['values'][clean]` (set semantics).
Accessing a missing (or `None`) label raises `KeyError` in the source. -/
def do_plain_text (blueprint : List Char) (label : Option (List Char)) (compare_root : Agg)
    (branch : List Char) : Except WErr Agg :=
  if branch.length < 1 then .ok compare_root
  else
    match label with
    | none => .error .keyError
    | some l =>
      match alookup compare_root l with
      | none => .error .keyError
      | some nd =>
        let clean := cleanVal branch
        match alookup nd.values clean with
        | none =>
          .ok (aupdate compare_root l { nd with values := nd.values ++ [(clean, [blueprint])] })
        | some srcs =>
          if blueprint ∈ srcs then .ok compare_root
          else .ok (aupdate compare_root l
            { nd with values := aupdate nd.values clean (srcs ++ [blueprint]) })

/-! ## The generic document and the tree walker -/

/-- The closed variant of parsed-document shapes dispatched on by `_do_branch`:
`collections.OrderedDict` (XML origin), `dict`, `list`, text (`str`/`unicode`),
`int`, `float` (carried as its `str()` rendering) and `None`. -/
inductive Doc where
  | omap (entries : List (List Char × Doc))
  | dict (entries : List (List Char × Doc))
  | list (elems : List Doc)
  | str (s : List Char)
  | int (n : Int)
  | float (rep : List Char)
  | null

/-- Model of `xmltodict.parse`: the source calls it with *no* surrounding
try/except, so a failure is an uncaught exception. -/
abbrev PX := List Char → Except Unit Doc

/-- Model of `json.loads`: the source wraps it in a bare try/except, so a
failure means `none` here. -/
abbrev PJ := List Char → Option Doc

/-- Path-segment extension (`label + ' : ' + seg`, or `seg` when label is `None`). -/
def extendLabel (label : Option (List Char)) (seg : List Char) : List Char :=
  match label with
  | none => seg
  | some l => l ++ ' ' :: ':' :: ' ' :: seg

/-- Phase 1 of the OrderedDict branch of `_do_branch`: fold the scalar
(`unicode`) children in sorted key order into one composite attribute label
and one composite attribute value, both joined with `" - "`; keys are cleaned,
values are used raw. -/
def omapAttrs (entries : List (List Char × Doc)) : Option (List Char × List Char) :=
  entries.foldl
    (fun acc e =>
      match e.2 with
      | .str s =>
        match acc with
        | none => some (cleanKey e.1, s)
        | some (al, av) =>
          some (al ++ ' ' :: '-' :: ' ' :: cleanKey e.1, av ++ ' ' :: '-' :: ' ' :: s)
      | _ => acc)
    none

/-- The `ELEMENT` marker segment used for sequence elements. -/
def elementSeg : List Char := ['E', 'L', 'E', 'M', 'E', 'N', 'T']

/-- `isinstance(x, unicode)` on a parsed-document node: text leaves only. -/
def isStrDoc : Doc → Bool
  | .str _ => true
  | _ => false

/-- Work items of the walker: `branch` is a `_do_branch` call; the `*Kids`
tasks are its internal iteration over sorted mapping entries / list elements;
`fileLines` is the line loop of `_do_file` with its `part_of_list` accumulator. -/
inductive WTask where
  | branch (label : Option (List Char)) (d : Doc)
  | omapKids (plabel : Option (List Char)) (entries : List (List Char × Doc))
  | dictKids (label : Option (List Char)) (entries : List (List Char × Doc))
  | listKids (label : Option (List Char)) (elems : List Doc)
  | fileLines (label : Option (List Char)) (lines : List (List Char)) (part : List Char)

/-- The fuel-indexed interpreter embedding the mutual recursion of
`_do_branch` and `_do_file`.  All recursive calls use strictly smaller fuel,
so `run` is structurally recursive and computes in the kernel; fuel
exhaustion is the distinguished error `WErr.fuel`. -/
def run (px : PX) (pj : PJ) (src : List Char) : Nat → Agg → WTask → Except WErr Agg
  | 0, _, _ => .error .fuel
  | n + 1, agg, t =>
    match t with
    | .branch label d =>
      match d with
      | .omap entries =>
        let sorted := sortEntries entries
        match omapAttrs sorted with
        | some (al, av) =>
          let pl := extendLabel label al
          match run px pj src n (chk_label agg pl src) (.branch (some pl) (.str av)) with
          | .error e => .error e
          | .ok agg2 => run px pj src n agg2 (.omapKids (some pl) sorted)
        | none => run px pj src n agg (.omapKids label sorted)
      | .dict entries => run px pj src n agg (.dictKids label (sortEntries entries))
      | .list es => run px pj src n agg (.listKids label es)
      | .str s =>
        if sniffXml s then
          match px s with
          | .error _ => .error .xmlError
          | .ok tree => run px pj src n agg (.branch label tree)
        else if s.contains '\n' then
          match pj s with
          | some d2 => run px pj src n agg (.branch label d2)
          | none =>
            match do_plain_text src label agg s with
            | .error e => .error e
            | .ok agg1 =>
              run px pj src n agg1 (.fileLines label (splitChar '\n' (subBackslashNl s)) [])
        else do_plain_text src label agg s
      | .float rep => do_plain_text src label agg rep
      | .int _ => .error .typeError
      | .null => .error .typeError
    | .omapKids plabel entries =>
      match entries with
      | [] => .ok agg
      | (k, d) :: rest =>
        if isStrDoc d then run px pj src n agg (.omapKids plabel rest)
        else
          let nl := extendLabel plabel (cleanKey k)
          match run px pj src n (chk_label agg nl src) (.branch (some nl) d) with
          | .error e => .error e
          | .ok agg1 => run px pj src n agg1 (.omapKids plabel rest)
    | .dictKids label entries =>
      match entries with
      | [] => .ok agg
      | (k, d) :: rest =>
        let nl := extendLabel label (cleanKey k)
        match run px pj src n (chk_label agg nl src) (.branch (some nl) d) with
        | .error e => .error e
        | .ok agg1 => run px pj src n agg1 (.dictKids label rest)
    | .listKids label elems =>
      match elems with
      | [] => .ok agg
      | e :: rest =>
        let nl := extendLabel label elementSeg
        match run px pj src n (chk_label agg nl src) (.branch (some nl) e) with
        | .error er => .error er
        | .ok agg1 => run px pj src n agg1 (.listKids label rest)
    | .fileLines label lines part =>
      match lines with
      | [] => .ok agg
      | line :: rest =>
        if isComment line then run px pj src n agg (.fileLines label rest part)
        else if hasCont line then
          run px pj src n agg (.fileLines label rest (part ++ ' ' :: contStripped line))
        else if part.length > 0 then
          let elems := splitChar ',' (removeAllWs (removeTabs part))
          match run px pj src n agg (.branch label (.list (elems.map .str))) with
          | .error e => .error e
          | .ok agg1 => run px pj src n agg1 (.fileLines label rest [])
        else
          let l1 := lstripWs line
          if l1.length = 0 then run px pj src n agg (.fileLines label rest part)
          else
            let l2 := stripExport l1
            let test := subEq l2
            if test.contains '=' then
              let kv := splitFirstEq test
              let dk := removeTabs (trimWs (unsubEq kv.1))
              let dv := removeTabs (trimWs (unsubEq kv.2))
              match run px pj src n agg (.branch label (.dict [(dk, .str dv)])) with
              | .error e => .error e
              | .ok agg1 => run px pj src n agg1 (.fileLines label rest [])
            else
              match run px pj src n agg (.branch label (.str l2)) with
              | .error e => .error e
              | .ok agg1 => run px pj src n agg1 (.fileLines label rest part)

/-- `_do_branch(blueprint, label, compare_root, blueprint_branch)`. -/
def do_branch (n : Nat) (px : PX) (pj : PJ) (src : List Char) (label : Option (List Char))
    (agg : Agg) (d : Doc) : Except WErr Agg :=
  run px pj src n agg (.branch label d)

/-- `_do_file(blueprint, label, compare_root, blueprint_branch)`: rewrite
backslash-newline to newline, split into physical lines, and run the line
loop with an empty `part_of_list` accumulator. -/
def do_file (n : Nat) (px : PX) (pj : PJ) (src : List Char) (label : Option (List Char))
    (agg : Agg) (s : List Char) : Except WErr Agg :=
  run px pj src n agg (.fileLines label (splitChar '\n' (subBackslashNl s)) [])

/-- The merge loop of `do_compare`: walk each source's raw text from the root
(label `None`) and collect every intermediate aggregator state; a fatal walk
error ends the trace. -/
def mergeSteps (n : Nat) (px : PX) (pj : PJ) : Agg → List (List Char × List Char) → List Agg
  | agg, [] => [agg]
  | agg, (s, txt) :: rest =>
    agg ::
      (match run px pj s n agg (.branch none (.str txt)) with
       | .ok agg1 => mergeSteps n px pj agg1 rest
       | .error _ => [])

-- trivial parser stand-ins used for concrete evaluations
def pxFail : PX := fun _ => .error ()
def pjFail : PJ := fun _ => none

-- sanity: a single-key freeform line at path p
example :
    do_file 6 pxFail pjFail ("A".data) (some ("p".data)) [("p".data, ⟨["A".data], []⟩)]
      ("flag=true".data) =
    .ok [("p".data, ⟨["A".data], []⟩),
         ("p : flag".data, ⟨["A".data], [("true".data, ["A".data])]⟩)] := by decide

/-! ## The diff reporter (`_skip_line`, `_skip_value`, `_spew_value_differences`) -/

/-- `_skip_line(config_details)`: with `-s` skip unless the row's source list
has the same length as the full config list (Python falls off the end of the
function, returning the falsy `None`, when the lengths agree); with `-v`
never skip; by default skip exactly when the lengths agree. -/
def skip_line (same verbose : Bool) (details configs : List (List Char)) : Bool :=
  if same then details.length != configs.length
  else if verbose then false
  else details.length == configs.length

/-- An abstract regular-expression pattern: all the source fixes about
`re.search(pattern, value)` is the resulting truth value per string. -/
abbrev Pat := List Char → Bool

/-- `_skip_include_test(value)`: skip iff an include pattern is set and does
not match. -/
def skip_include_test (inc : Option Pat) (v : List Char) : Bool :=
  match inc with
  | none => false
  | some p => !(p v)

/-- `_skip_exclude_test(value)`: skip iff an exclude pattern is set and matches. -/
def skip_exclude_test (exc : Option Pat) (v : List Char) : Bool :=
  match exc with
  | none => false
  | some p => p v

/-- `_skip_value(value)`: skip iff the include test or the exclude test says so. -/
def skip_value (inc exc : Option Pat) (v : List Char) : Bool :=
  skip_include_test inc v || skip_exclude_test exc v

/-- `_get_spew_line(details)`: one tab-separated presence column per config. -/
def get_spew_line (configs details : List (List Char)) : List Char :=
  configs.foldr
    (fun dc acc =>
      (if dc ∈ details then ['\t', ' ', 'X', ' '] else ['\t', ' ', '-', ' ']) ++ acc)
    []

/-- The shortened-value accumulator of `_spew_value_differences`: split the
value on the literal two-character `\n`, drop comment rows and empty rows,
left-strip each remaining row, and join with single spaces. -/
def shortFormOf (value : List Char) : List Char :=
  (splitBackslashN value).foldl
    (fun acc r =>
      if isComment r || r.length < 1 then acc
      else if acc.length = 0 then lstripWs r
      else acc ++ ' ' :: lstripWs r)
    []

/-- The Excel quote fix: the truncated text starts (after whitespace) with a
double quote and contains an odd number of double quotes. -/
def quoteFix (s : List Char) : Bool :=
  ((lstripWs s).head? == some '"') && (s.filter (fun c => c == '"')).length % 2 == 1

/-- The truncated value column: at most `thresh - 1` characters of the
short form, the ellipsis marker, and possibly a closing quote. -/
def shortColumn (thresh : Nat) (value : List Char) : List Char :=
  let sv := (shortFormOf value).take (thresh - 1)
  sv ++ ' ' :: '.' :: '.' :: '.' :: ' ' :: (if quoteFix sv then ['"'] else [])

/-- The line built by `_spew_value_differences` after its skip guards: the
path column is everything before the key's last `" : "` separator, the value
is the key's last `" : "`-segment (left-stripped); a value longer than the
short-value threshold is rendered via `shortColumn` and repeated verbatim in
a trailing column after the presence columns. -/
def spew_value_line (thresh : Nat) (configs : List (List Char)) (key : List Char)
    (details : List (List Char)) : List Char :=
  let parts := splitColon key
  let pathPart := joinColon parts.dropLast
  let value := lstripWs (parts.getLastD [])
  let cols := get_spew_line configs details
  if value.length > thresh then
    pathPart ++ '\t' :: shortColumn thresh value ++ cols ++ '\t' :: value
  else
    pathPart ++ '\t' :: value ++ cols

/-- `_spew_value_differences(key, config_details)`: `none` when the row is
suppressed by `_skip_line` or `_skip_value`, otherwise the rendered line. -/
def spew_value_differences (same verbose : Bool) (thresh : Nat) (configs : List (List Char))
    (inc exc : Option Pat) (key : List Char) (details : List (List Char)) :
    Option (List Char) :=
  if skip_line same verbose details configs then none
  else if skip_value inc exc key then none
  else some (spew_value_line thresh configs key details)

/-- `_spew_path_differences(key, config_details)`: `none` when suppressed,
otherwise the presence row (`key`, a quoted space, the presence columns). -/
def spew_path_differences (same verbose : Bool) (configs : List (List Char))
    (inc exc : Option Pat) (key : List Char) (details : List (List Char)) :
    Option (List Char) :=
  if skip_line same verbose details configs then none
  else if skip_value inc exc key then none
  else some (key ++ '\t' :: '"' :: ' ' :: '"' :: get_spew_line configs details)

-- sanity checks of the reporter embedding
example :
    spew_value_line 40 [ "A".data, "B".data ] ("p : a : b".data) [ "A".data ] =
      ("p : a\tb\t X \t - ".data) := by decide
example : skip_line false false [ "A".data ] [ "A".data, "B".data ] = false := by decide
example : skip_line false false [ "A".data, "B".data ] [ "A".data, "B".data ] = true := by decide

/-! ## Aggregator properties and basic lemmas -/

/-- The spec invariant for one run: at every path present in the aggregator,
every per-value source set is contained in the path's `clusters` set. -/
def InvAgg (agg : Agg) : Prop :=
  ∀ l nd, alookup agg l = some nd →
    ∀ v srcs, alookup nd.values v = some srcs → srcs ⊆ nd.clusters

/-- Call-site precondition of the walker: when called with a concrete label,
that label is present and the current source is already in its `clusters`
(established by the `_chk_label` call made before every descent). -/
def PreL (src : List Char) (label : Option (List Char)) (agg : Agg) : Prop :=
  ∀ l, label = some l → ∃ nd, alookup agg l = some nd ∧ src ∈ nd.clusters

/-- Aggregator growth: every path present before is present after, with a
`clusters` list that only gained members. -/
def extendsAgg (a b : Agg) : Prop :=
  ∀ l nd, alookup a l = some nd → ∃ nd', alookup b l = some nd' ∧ nd.clusters ⊆ nd'.clusters

theorem extendsAgg_refl (a : Agg) : extendsAgg a a :=
  fun _ nd h => ⟨nd, h, fun _ hx => hx⟩

theorem extendsAgg_trans {a b c : Agg} (h1 : extendsAgg a b) (h2 : extendsAgg b c) :
    extendsAgg a c := by
  intro l nd h
  obtain ⟨nd1, hl1, hs1⟩ := h1 l nd h
  obtain ⟨nd2, hl2, hs2⟩ := h2 l nd1 hl1
  exact ⟨nd2, hl2, fun x hx => hs2 (hs1 hx)⟩

theorem PreL_mono {src label a b} (h : PreL src label a) (he : extendsAgg a b) :
    PreL src label b := by
  intro l hl
  obtain ⟨nd, hnd, hs⟩ := h l hl
  obtain ⟨nd', hnd', hsub⟩ := he l nd hnd
  exact ⟨nd', hnd', hsub hs⟩

theorem alookup_aupdate {β : Type} (l : List (List Char × β)) (k : List Char) (nv : β)
    (k' : List Char) :
    alookup (aupdate l k nv) k' =
      if k = k' then (alookup l k').map (fun _ => nv) else alookup l k' := by
  induction l with
  | nil => simp only [aupdate, alookup, Option.map_none']; split <;> rfl
  | cons hd tl ih =>
    obtain ⟨hk, hv⟩ := hd
    by_cases h1 : hk = k
    · subst h1
      by_cases h2 : hk = k'
      · subst h2
        simp [aupdate, alookup]
      · simp [aupdate, alookup, h2]
    · by_cases h2 : hk = k'
      · subst h2
        simp [aupdate, alookup, h1, Ne.symm h1]
      · simp [aupdate, alookup, h1, h2, ih]

theorem alookup_append {β : Type} (l : List (List Char × β)) (k : List Char) (v : β)
    (k' : List Char) :
    alookup (l ++ [(k, v)]) k' =
      match alookup l k' with
      | some x => some x
      | none => if k = k' then some v else none := by
  induction l with
  | nil => simp [alookup]
  | cons hd tl ih =>
    obtain ⟨hk, hv⟩ := hd
    by_cases h2 : hk = k'
    · subst h2
      simp [alookup]
    · simp [alookup, h2, ih]

/-- Complete characterization of `_chk_label` through `alookup`. -/
theorem alookup_chk_label (agg : Agg) (l s l' : List Char) :
    alookup (chk_label agg l s) l' =
      if l = l' then
        match alookup agg l with
        | none => some ⟨[s], []⟩
        | some nd =>
          some (if s ∈ nd.clusters then nd else { nd with clusters := nd.clusters ++ [s] })
      else alookup agg l' := by
  unfold chk_label
  cases hl : alookup agg l with
  | none =>
    rw [alookup_append]
    by_cases h : l = l'
    · subst h; rw [hl]
    · simp [h]
      cases alookup agg l' <;> rfl
  | some nd =>
    by_cases hm : s ∈ nd.clusters
    · simp only [hm, if_pos]
      by_cases h : l = l'
      · subst h; rw [hl]; simp
      · simp [h]
    · simp only [hm, if_neg, Bool.false_eq_true, not_false_iff]
      rw [alookup_aupdate]
      by_cases h : l = l'
      · subst h; rw [hl]; simp [hm]
      · simp [h]

theorem chk_label_self (agg : Agg) (l s : List Char) :
    ∃ nd, alookup (chk_label agg l s) l = some nd ∧ s ∈ nd.clusters := by
  rw [alookup_chk_label]
  simp only [if_pos rfl]
  cases hl : alookup agg l with
  | none => exact ⟨⟨[s], []⟩, rfl, by simp⟩
  | some nd =>
    by_cases hm : s ∈ nd.clusters
    · exact ⟨nd, by simp [hm], hm⟩
    · exact ⟨{ nd with clusters := nd.clusters ++ [s] }, by simp [hm], by simp⟩

theorem chk_label_extends (agg : Agg) (l s : List Char) :
    extendsAgg agg (chk_label agg l s) := by
  intro l' nd h
  rw [alookup_chk_label]
  by_cases he : l = l'
  · subst he
    rw [h]
    simp only [if_pos rfl]
    by_cases hm : s ∈ nd.clusters
    · exact ⟨nd, by simp [hm], fun _ hx => hx⟩
    · exact ⟨{ nd with clusters := nd.clusters ++ [s] }, by simp [hm],
        fun x hx => List.mem_append_left _ hx⟩
  · exact ⟨nd, by simp [he, h], fun _ hx => hx⟩

theorem chk_label_inv {agg : Agg} (h : InvAgg agg) (l s : List Char) :
    InvAgg (chk_label agg l s) := by
  intro l' nd' hl' v srcs hv
  rw [alookup_chk_label] at hl'
  by_cases he : l = l'
  · subst he
    rw [if_pos rfl] at hl'
    cases hla : alookup agg l with
    | none =>
      rw [hla] at hl'
      cases hl'
      simp [alookup] at hv
    | some nd =>
      rw [hla] at hl'
      have hl2 : some (if s ∈ nd.clusters then nd
          else { nd with clusters := nd.clusters ++ [s] }) = some nd' := hl'
      by_cases hm : s ∈ nd.clusters
      · rw [if_pos hm] at hl2
        have hnd := Option.some.inj hl2
        subst hnd
        exact h l nd hla v srcs hv
      · rw [if_neg hm] at hl2
        have hnd := Option.some.inj hl2
        subst hnd
        exact fun x hx => List.mem_append_left _ (h l nd hla v srcs hv hx)
  · rw [if_neg he] at hl'
    exact h l' nd' hl' v srcs hv

theorem dpt_empty (src : List Char) (lab : Option (List Char)) (agg : Agg) :
    do_plain_text src lab agg [] = .ok agg := rfl

/-- Shape of a `_do_plain_text` call on a nonempty value at a present label. -/
theorem dpt_shape (src l : List Char) (agg : Agg) (v : List Char) (nd : PathNode)
    (hla : alookup agg l = some nd) (hv : ¬ v.length < 1) :
    do_plain_text src (some l) agg v =
      match alookup nd.values (cleanVal v) with
      | none => .ok (aupdate agg l { nd with values := nd.values ++ [(cleanVal v, [src])] })
      | some srcs =>
        if src ∈ srcs then .ok agg
        else .ok (aupdate agg l
          { nd with values := aupdate nd.values (cleanVal v) (srcs ++ [src]) }) := by
  unfold do_plain_text
  rw [if_neg hv]
  show (match alookup agg l with
        | none => Except.error WErr.keyError
        | some nd =>
          match alookup nd.values (cleanVal v) with
          | none => .ok (aupdate agg l { nd with values := nd.values ++ [(cleanVal v, [src])] })
          | some srcs =>
            if src ∈ srcs then .ok agg
            else .ok (aupdate agg l
              { nd with values := aupdate nd.values (cleanVal v) (srcs ++ [src]) })) = _
  rw [hla]

theorem extends_aupdate_values (agg : Agg) (l : List Char) (nd : PathNode)
    (vals : List (List Char × List (List Char))) (hla : alookup agg l = some nd) :
    extendsAgg agg (aupdate agg l { nd with values := vals }) := by
  intro l'' nd0 h0
  rw [alookup_aupdate]
  by_cases he : l = l''
  · subst he
    have heq : nd0 = nd := by rw [hla] at h0; exact (Option.some.inj h0).symm
    subst heq
    exact ⟨{ nd0 with values := vals }, by rw [h0]; simp, fun _ hx => hx⟩
  · exact ⟨nd0, by rw [if_neg he]; exact h0, fun _ hx => hx⟩

theorem dpt_extends {src : List Char} {lab : Option (List Char)} {agg : Agg}
    {v : List Char} {agg' : Agg}
    (h : do_plain_text src lab agg v = .ok agg') : extendsAgg agg agg' := by
  by_cases hv : v.length < 1
  · unfold do_plain_text at h
    rw [if_pos hv] at h
    cases h
    exact extendsAgg_refl _
  · cases lab with
    | none =>
      unfold do_plain_text at h
      rw [if_neg hv] at h
      exact absurd h (by simp)
    | some l =>
      cases hla : alookup agg l with
      | none =>
        unfold do_plain_text at h
        rw [if_neg hv] at h
        have h2 : (match alookup agg l with
            | none => Except.error WErr.keyError
            | some nd =>
              match alookup nd.values (cleanVal v) with
              | none =>
                Except.ok (aupdate agg l { nd with values := nd.values ++ [(cleanVal v, [src])] })
              | some srcs =>
                if src ∈ srcs then Except.ok agg
                else Except.ok (aupdate agg l
                  { nd with values := aupdate nd.values (cleanVal v) (srcs ++ [src]) })) =
            Except.ok agg' := h
        rw [hla] at h2
        exact absurd h2 (by simp)
      | some nd =>
        rw [dpt_shape src l agg v nd hla hv] at h
        cases hvv : alookup nd.values (cleanVal v) with
        | none =>
          rw [hvv] at h
          have h2 : Except.ok (aupdate agg l
              { nd with values := nd.values ++ [(cleanVal v, [src])] }) = Except.ok agg' := h
          cases Except.ok.inj h2
          exact extends_aupdate_values agg l nd _ hla
        | some srcs =>
          rw [hvv] at h
          have h2 : (if src ∈ srcs then Except.ok agg
              else Except.ok (aupdate agg l
                { nd with values := aupdate nd.values (cleanVal v) (srcs ++ [src]) })) =
              Except.ok agg' := h
          by_cases hm : src ∈ srcs
          · rw [if_pos hm] at h2
            cases Except.ok.inj h2
            exact extendsAgg_refl _
          · rw [if_neg hm] at h2
            cases Except.ok.inj h2
            exact extends_aupdate_values agg l nd _ hla

theorem dpt_ok_label {src : List Char} {lab : Option (List Char)} {agg : Agg}
    {v : List Char} {agg' : Agg} (hv : ¬ v.length < 1)
    (h : do_plain_text src lab agg v = .ok agg') :
    ∃ l nd, lab = some l ∧ alookup agg l = some nd := by
  cases lab with
  | none =>
    unfold do_plain_text at h
    rw [if_neg hv] at h
    exact absurd h (by simp)
  | some l =>
    cases hla : alookup agg l with
    | none =>
      unfold do_plain_text at h
      rw [if_neg hv] at h
      have h2 : (match alookup agg l with
          | none => Except.error WErr.keyError
          | some nd =>
            match alookup nd.values (cleanVal v) with
            | none =>
              Except.ok (aupdate agg l { nd with values := nd.values ++ [(cleanVal v, [src])] })
            | some srcs =>
              if src ∈ srcs then Except.ok agg
              else Except.ok (aupdate agg l
                { nd with values := aupdate nd.values (cleanVal v) (srcs ++ [src]) })) =
          Except.ok agg' := h
      rw [hla] at h2
      exact absurd h2 (by simp)
    | some nd => exact ⟨l, nd, rfl, hla⟩

theorem inv_aupdate_values {agg : Agg} {l : List Char} {nd : PathNode}
    {vals : List (List Char × List (List Char))} (hI : InvAgg agg)
    (hla : alookup agg l = some nd)
    (hvals : ∀ w srcs, alookup vals w = some srcs → srcs ⊆ nd.clusters) :
    InvAgg (aupdate agg l { nd with values := vals }) := by
  intro l' nd' hl' w srcs hw
  rw [alookup_aupdate] at hl'
  by_cases he : l = l'
  · subst he
    rw [if_pos rfl, hla] at hl'
    have heq : { nd with values := vals } = nd' := Option.some.inj hl'
    subst heq
    exact hvals w srcs hw
  · rw [if_neg he] at hl'
    exact hI l' nd' hl' w srcs hw

theorem dpt_inv {src : List Char} {lab : Option (List Char)} {agg : Agg}
    {v : List Char} {agg' : Agg} (hI : InvAgg agg) (hP : PreL src lab agg)
    (h : do_plain_text src lab agg v = .ok agg') : InvAgg agg' := by
  by_cases hv : v.length < 1
  · unfold do_plain_text at h
    rw [if_pos hv] at h
    cases Except.ok.inj h
    exact hI
  · obtain ⟨l, nd, rfl, hla⟩ := dpt_ok_label hv h
    obtain ⟨ndp, hndp, hsp⟩ := hP l rfl
    have hnd : ndp = nd := Option.some.inj (hndp.symm.trans hla)
    subst hnd
    rw [dpt_shape src l agg v ndp hla hv] at h
    cases hvv : alookup ndp.values (cleanVal v) with
    | none =>
      rw [hvv] at h
      have h2 : Except.ok (aupdate agg l
          { ndp with values := ndp.values ++ [(cleanVal v, [src])] }) = Except.ok agg' := h
      cases Except.ok.inj h2
      refine inv_aupdate_values hI hla ?_
      intro w srcs hw
      rw [alookup_append] at hw
      cases hww : alookup ndp.values w with
      | some old =>
        rw [hww] at hw
        rw [← Option.some.inj hw]
        exact hI l ndp hla w old hww
      | none =>
        rw [hww] at hw
        by_cases hwe : cleanVal v = w
        · rw [if_pos hwe] at hw
          cases Option.some.inj hw
          intro x hx
          rw [List.mem_singleton] at hx
          subst hx
          exact hsp
        · rw [if_neg hwe] at hw
          exact absurd hw (by simp)
    | some srcs₀ =>
      rw [hvv] at h
      have h2 : (if src ∈ srcs₀ then Except.ok agg
          else Except.ok (aupdate agg l
            { ndp with values := aupdate ndp.values (cleanVal v) (srcs₀ ++ [src]) })) =
          Except.ok agg' := h
      by_cases hm : src ∈ srcs₀
      · rw [if_pos hm] at h2
        cases Except.ok.inj h2
        exact hI
      · rw [if_neg hm] at h2
        cases Except.ok.inj h2
        refine inv_aupdate_values hI hla ?_
        intro w srcs hw
        rw [alookup_aupdate] at hw
        by_cases hwe : cleanVal v = w
        · rw [if_pos hwe, ← hwe, hvv] at hw
          cases Option.some.inj hw
          intro x hx
          rcases List.mem_append.mp hx with hx1 | hx2
          · exact hI l ndp hla (cleanVal v) srcs₀ hvv hx1
          · rw [List.mem_singleton] at hx2
            subst hx2
            exact hsp
        · rw [if_neg hwe] at hw
          exact hI l ndp hla w srcs hw

theorem dpt_record (src l : List Char) (agg : Agg) (nd : PathNode) (v : List Char)
    (hla : alookup agg l = some nd) (hv : ¬ v.length < 1) :
    ∃ agg' nd' srcs, do_plain_text src (some l) agg v = .ok agg' ∧
      alookup agg' l = some nd' ∧ nd'.clusters = nd.clusters ∧
      alookup nd'.values (cleanVal v) = some srcs ∧ src ∈ srcs ∧
      do_plain_text src (some l) agg' v = .ok agg' := by
  cases hvv : alookup nd.values (cleanVal v) with
  | none =>
    refine ⟨aupdate agg l { nd with values := nd.values ++ [(cleanVal v, [src])] },
      { nd with values := nd.values ++ [(cleanVal v, [src])] }, [src], ?_, ?_, rfl, ?_, ?_, ?_⟩
    · rw [dpt_shape src l agg v nd hla hv, hvv]
    · rw [alookup_aupdate, if_pos rfl, hla]
      rfl
    · rw [alookup_append, hvv, if_pos rfl]
    · exact List.mem_singleton.mpr rfl
    · rw [dpt_shape src l _ v _ (by rw [alookup_aupdate, if_pos rfl, hla]; rfl) hv]
      show (match alookup ({ nd with values := nd.values ++ [(cleanVal v, [src])] } :
          PathNode).values (cleanVal v) with
        | none => _ | some srcs => _) = _
      rw [show alookup ({ nd with values := nd.values ++ [(cleanVal v, [src])] } :
          PathNode).values (cleanVal v) = some [src] from by
        rw [show ({ nd with values := nd.values ++ [(cleanVal v, [src])] } :
            PathNode).values = nd.values ++ [(cleanVal v, [src])] from rfl,
          alookup_append, hvv, if_pos rfl]]
      simp
  | some srcs₀ =>
    by_cases hm : src ∈ srcs₀
    · refine ⟨agg, nd, srcs₀, ?_, hla, rfl, hvv, hm, ?_⟩
      · rw [dpt_shape src l agg v nd hla hv, hvv]
        exact if_pos hm
      · rw [dpt_shape src l agg v nd hla hv, hvv]
        exact if_pos hm
    · refine ⟨aupdate agg l { nd with values := aupdate nd.values (cleanVal v) (srcs₀ ++ [src]) },
        { nd with values := aupdate nd.values (cleanVal v) (srcs₀ ++ [src]) },
        srcs₀ ++ [src], ?_, ?_, rfl, ?_, ?_, ?_⟩
      · rw [dpt_shape src l agg v nd hla hv, hvv]
        exact if_neg hm
      · rw [alookup_aupdate, if_pos rfl, hla]
        rfl
      · show alookup (aupdate nd.values (cleanVal v) (srcs₀ ++ [src])) (cleanVal v) = _
        rw [alookup_aupdate, if_pos rfl, hvv]
        rfl
      · exact List.mem_append_right _ (List.mem_singleton.mpr rfl)
      · rw [dpt_shape src l _ v _ (by rw [alookup_aupdate, if_pos rfl, hla]; rfl) hv]
        rw [show alookup ({ nd with
            values := aupdate nd.values (cleanVal v) (srcs₀ ++ [src]) } : PathNode).values
            (cleanVal v) = some (srcs₀ ++ [src]) from by
          rw [show ({ nd with values := aupdate nd.values (cleanVal v) (srcs₀ ++ [src]) } :
              PathNode).values = aupdate nd.values (cleanVal v) (srcs₀ ++ [src]) from rfl,
            alookup_aupdate, if_pos rfl, hvv]; rfl]
        exact if_pos (List.mem_append_right _ (List.mem_singleton.mpr rfl))

/-- Per-task call-site precondition: a `branch` or `fileLines` task called
with a concrete label requires the current source to be registered in the
label's `clusters` (which `_chk_label` guarantees before every descent). -/
def PreT (src : List Char) (t : WTask) (agg : Agg) : Prop :=
  match t with
  | .branch label _ => PreL src label agg
  | .fileLines label _ _ => PreL src label agg
  | _ => True

theorem PreL_chk_self (src : List Char) (agg : Agg) (l : List Char) :
    PreL src (some l) (chk_label agg l src) := by
  intro l' hl'
  cases Option.some.inj hl'
  exact chk_label_self agg l src

/-- Soundness of one interpreter step, by induction on the fuel: a completed
walk only grows the aggregator, and preserves the clusters-superset invariant
whenever its call-site precondition holds. -/
theorem run_good : ∀ (n : Nat) (px : PX) (pj : PJ) (src : List Char) (agg : Agg) (t : WTask)
    (agg' : Agg), run px pj src n agg t = .ok agg' →
    extendsAgg agg agg' ∧ (InvAgg agg → PreT src t agg → InvAgg agg') := by
  intro n
  induction n with
  | zero =>
    intro px pj src agg t agg' h
    exact absurd h (by simp [run])
  | succ n ih =>
    intro px pj src agg t agg' h
    cases t with
    | branch label d =>
      cases d with
      | omap entries =>
        simp only [run] at h
        cases hoa : omapAttrs (sortEntries entries) with
        | none =>
          rw [hoa] at h
          have h1 : run px pj src n agg (.omapKids label (sortEntries entries)) =
              .ok agg' := h
          obtain ⟨e1, i1⟩ := ih px pj src agg _ agg' h1
          exact ⟨e1, fun hI _ => i1 hI trivial⟩
        | some alav =>
          obtain ⟨al, av⟩ := alav
          rw [hoa] at h
          have h1 : (match run px pj src n (chk_label agg (extendLabel label al) src)
                (WTask.branch (some (extendLabel label al)) (Doc.str av)) with
              | Except.error e => (Except.error e : Except WErr Agg)
              | Except.ok agg2 => run px pj src n agg2
                  (WTask.omapKids (some (extendLabel label al)) (sortEntries entries))) =
              Except.ok agg' := h
          cases hr1 : run px pj src n (chk_label agg (extendLabel label al) src)
              (.branch (some (extendLabel label al)) (.str av)) with
          | error e =>
            rw [hr1] at h1
            simp at h1
          | ok agg2 =>
            rw [hr1] at h1
            have h2 : run px pj src n agg2
                (WTask.omapKids (some (extendLabel label al)) (sortEntries entries)) =
                Except.ok agg' := h1
            obtain ⟨e1, i1⟩ := ih px pj src _ _ agg2 hr1
            obtain ⟨e2, i2⟩ := ih px pj src agg2 _ agg' h2
            refine ⟨extendsAgg_trans (chk_label_extends agg (extendLabel label al) src)
              (extendsAgg_trans e1 e2), ?_⟩
            intro hI _
            exact i2 (i1 (chk_label_inv hI _ src) (PreL_chk_self src agg _)) trivial
      | dict entries =>
        simp only [run] at h
        obtain ⟨e1, i1⟩ := ih px pj src agg _ agg' h
        exact ⟨e1, fun hI _ => i1 hI trivial⟩
      | list es =>
        simp only [run] at h
        obtain ⟨e1, i1⟩ := ih px pj src agg _ agg' h
        exact ⟨e1, fun hI _ => i1 hI trivial⟩
      | str s =>
        simp only [run] at h
        by_cases hs : sniffXml s = true
        · rw [if_pos hs] at h
          cases hpx : px s with
          | error e => rw [hpx] at h; exact absurd h (by simp)
          | ok tree =>
            rw [hpx] at h
            have h1 : run px pj src n agg (.branch label tree) = .ok agg' := h
            obtain ⟨e1, i1⟩ := ih px pj src agg _ agg' h1
            exact ⟨e1, fun hI hP => i1 hI hP⟩
        · rw [if_neg hs] at h
          by_cases hnl : s.contains '\n' = true
          · rw [if_pos hnl] at h
            cases hpj : pj s with
            | some d2 =>
              rw [hpj] at h
              have h1 : run px pj src n agg (.branch label d2) = .ok agg' := h
              obtain ⟨e1, i1⟩ := ih px pj src agg _ agg' h1
              exact ⟨e1, fun hI hP => i1 hI hP⟩
            | none =>
              rw [hpj] at h
              cases hdp : do_plain_text src label agg s with
              | error e => rw [hdp] at h; exact absurd h (by simp)
              | ok agg1 =>
                rw [hdp] at h
                have h1 : run px pj src n agg1
                    (.fileLines label (splitChar '\n' (subBackslashNl s)) []) = .ok agg' := h
                obtain ⟨e1, i1⟩ := ih px pj src agg1 _ agg' h1
                refine ⟨extendsAgg_trans (dpt_extends hdp) e1, ?_⟩
                intro hI hP
                exact i1 (dpt_inv hI hP hdp) (PreL_mono hP (dpt_extends hdp))
          · rw [if_neg hnl] at h
            exact ⟨dpt_extends h, fun hI hP => dpt_inv hI hP h⟩
      | float rep =>
        simp only [run] at h
        exact ⟨dpt_extends h, fun hI hP => dpt_inv hI hP h⟩
      | int m =>
        simp only [run] at h
        exact absurd h (by simp)
      | null =>
        simp only [run] at h
        exact absurd h (by simp)
    | omapKids plabel entries =>
      cases entries with
      | nil =>
        simp only [run] at h
        cases Except.ok.inj h
        exact ⟨extendsAgg_refl _, fun hI _ => hI⟩
      | cons kd rest =>
        obtain ⟨k, d⟩ := kd
        simp only [run] at h
        by_cases hsd : isStrDoc d = true
        · rw [if_pos hsd] at h
          obtain ⟨e1, i1⟩ := ih px pj src agg _ agg' h
          exact ⟨e1, fun hI _ => i1 hI trivial⟩
        · rw [if_neg hsd] at h
          cases hr1 : run px pj src n (chk_label agg (extendLabel plabel (cleanKey k)) src)
              (.branch (some (extendLabel plabel (cleanKey k))) d) with
          | error e => rw [hr1] at h; exact absurd h (by simp)
          | ok agg1 =>
            rw [hr1] at h
            have h2 : run px pj src n agg1 (.omapKids plabel rest) = .ok agg' := h
            obtain ⟨e1, i1⟩ := ih px pj src _ _ agg1 hr1
            obtain ⟨e2, i2⟩ := ih px pj src agg1 _ agg' h2
            refine ⟨extendsAgg_trans (chk_label_extends agg _ src)
              (extendsAgg_trans e1 e2), ?_⟩
            intro hI _
            exact i2 (i1 (chk_label_inv hI _ src) (PreL_chk_self src agg _)) trivial
    | dictKids label entries =>
      cases entries with
      | nil =>
        simp only [run] at h
        cases Except.ok.inj h
        exact ⟨extendsAgg_refl _, fun hI _ => hI⟩
      | cons kd rest =>
        obtain ⟨k, d⟩ := kd
        simp only [run] at h
        cases hr1 : run px pj src n (chk_label agg (extendLabel label (cleanKey k)) src)
            (.branch (some (extendLabel label (cleanKey k))) d) with
        | error e => rw [hr1] at h; exact absurd h (by simp)
        | ok agg1 =>
          rw [hr1] at h
          have h2 : run px pj src n agg1 (.dictKids label rest) = .ok agg' := h
          obtain ⟨e1, i1⟩ := ih px pj src _ _ agg1 hr1
          obtain ⟨e2, i2⟩ := ih px pj src agg1 _ agg' h2
          refine ⟨extendsAgg_trans (chk_label_extends agg _ src)
            (extendsAgg_trans e1 e2), ?_⟩
          intro hI _
          exact i2 (i1 (chk_label_inv hI _ src) (PreL_chk_self src agg _)) trivial
    | listKids label elems =>
      cases elems with
      | nil =>
        simp only [run] at h
        cases Except.ok.inj h
        exact ⟨extendsAgg_refl _, fun hI _ => hI⟩
      | cons e rest =>
        simp only [run] at h
        cases hr1 : run px pj src n (chk_label agg (extendLabel label elementSeg) src)
            (.branch (some (extendLabel label elementSeg)) e) with
        | error er => rw [hr1] at h; exact absurd h (by simp)
        | ok agg1 =>
          rw [hr1] at h
          have h2 : run px pj src n agg1 (.listKids label rest) = .ok agg' := h
          obtain ⟨e1, i1⟩ := ih px pj src _ _ agg1 hr1
          obtain ⟨e2, i2⟩ := ih px pj src agg1 _ agg' h2
          refine ⟨extendsAgg_trans (chk_label_extends agg _ src)
            (extendsAgg_trans e1 e2), ?_⟩
          intro hI _
          exact i2 (i1 (chk_label_inv hI _ src) (PreL_chk_self src agg _)) trivial
    | fileLines label lines part =>
      cases lines with
      | nil =>
        simp only [run] at h
        cases Except.ok.inj h
        exact ⟨extendsAgg_refl _, fun hI _ => hI⟩
      | cons line rest =>
        simp only [run] at h
        by_cases hc : isComment line = true
        · rw [if_pos hc] at h
          obtain ⟨e1, i1⟩ := ih px pj src agg _ agg' h
          exact ⟨e1, fun hI hP => i1 hI hP⟩
        · rw [if_neg hc] at h
          by_cases hcont : hasCont line = true
          · rw [if_pos hcont] at h
            obtain ⟨e1, i1⟩ := ih px pj src agg _ agg' h
            exact ⟨e1, fun hI hP => i1 hI hP⟩
          · rw [if_neg hcont] at h
            by_cases hp : part.length > 0
            · rw [if_pos hp] at h
              cases hr1 : run px pj src n agg (.branch label
                  (.list ((splitChar ',' (removeAllWs (removeTabs part))).map .str))) with
              | error e => rw [hr1] at h; exact absurd h (by simp)
              | ok agg1 =>
                rw [hr1] at h
                have h2 : run px pj src n agg1 (.fileLines label rest []) = .ok agg' := h
                obtain ⟨e1, i1⟩ := ih px pj src agg _ agg1 hr1
                obtain ⟨e2, i2⟩ := ih px pj src agg1 _ agg' h2
                refine ⟨extendsAgg_trans e1 e2, ?_⟩
                intro hI hP
                exact i2 (i1 hI hP) (PreL_mono hP e1)
            · rw [if_neg hp] at h
              by_cases hl1 : (lstripWs line).length = 0
              · rw [if_pos hl1] at h
                obtain ⟨e1, i1⟩ := ih px pj src agg _ agg' h
                exact ⟨e1, fun hI hP => i1 hI hP⟩
              · rw [if_neg hl1] at h
                by_cases he : (subEq (stripExport (lstripWs line))).contains '=' = true
                · rw [if_pos he] at h
                  cases hr1 : run px pj src n agg (.branch label
                      (.dict [(removeTabs (trimWs (unsubEq
                          (splitFirstEq (subEq (stripExport (lstripWs line)))).1)),
                        .str (removeTabs (trimWs (unsubEq
                          (splitFirstEq (subEq (stripExport (lstripWs line)))).2))))])) with
                  | error e => rw [hr1] at h; exact absurd h (by simp)
                  | ok agg1 =>
                    rw [hr1] at h
                    have h2 : run px pj src n agg1 (.fileLines label rest []) = .ok agg' := h
                    obtain ⟨e1, i1⟩ := ih px pj src agg _ agg1 hr1
                    obtain ⟨e2, i2⟩ := ih px pj src agg1 _ agg' h2
                    refine ⟨extendsAgg_trans e1 e2, ?_⟩
                    intro hI hP
                    exact i2 (i1 hI hP) (PreL_mono hP e1)
                · rw [if_neg he] at h
                  cases hr1 : run px pj src n agg (.branch label
                      (.str (stripExport (lstripWs line)))) with
                  | error e => rw [hr1] at h; exact absurd h (by simp)
                  | ok agg1 =>
                    rw [hr1] at h
                    have h2 : run px pj src n agg1 (.fileLines label rest part) = .ok agg' := h
                    obtain ⟨e1, i1⟩ := ih px pj src agg _ agg1 hr1
                    obtain ⟨e2, i2⟩ := ih px pj src agg1 _ agg' h2
                    refine ⟨extendsAgg_trans e1 e2, ?_⟩
                    intro hI hP
                    exact i2 (i1 hI hP) (PreL_mono hP e1)

theorem InvAgg_nil : InvAgg [] := by
  intro l nd h
  simp [alookup] at h

theorem mergeSteps_inv :
    ∀ (sources : List (List Char × List Char)) (n : Nat) (px : PX) (pj : PJ) (agg : Agg),
      InvAgg agg → ∀ a, a ∈ mergeSteps n px pj agg sources → InvAgg a := by
  intro sources
  induction sources with
  | nil =>
    intro n px pj agg hI a ha
    simp only [mergeSteps, List.mem_singleton] at ha
    subst ha
    exact hI
  | cons st rest ihs =>
    obtain ⟨s, txt⟩ := st
    intro n px pj agg hI a ha
    simp only [mergeSteps] at ha
    rcases List.mem_cons.mp ha with hfst | hrest
    · subst hfst
      exact hI
    · cases hr : run px pj s n agg (.branch none (.str txt)) with
      | error e =>
        rw [hr] at hrest
        simp at hrest
      | ok agg1 =>
        rw [hr] at hrest
        have hI1 : InvAgg agg1 :=
          (run_good n px pj s agg _ agg1 hr).2 hI (fun _ hl => Option.noConfusion hl)
        exact ihs n px pj agg1 hI1 a hrest

/-- C2: at every point during and after merging all sources — i.e. in every
aggregator state of the merge trace — for every canonical path present in the
aggregator, every per-value source set in `values` is contained in the path's
`clusters` set (so `clusters` is a superset of the union of the sets in
`values`, and in particular `|clusters[P]|` is at least the size of that
union). -/
theorem c2_clusters_superset_invariant (n : Nat) (px : PX) (pj : PJ)
    (sources : List (List Char × List Char)) (a : Agg)
    (ha : a ∈ mergeSteps n px pj [] sources)
    (l : List Char) (nd : PathNode) (hl : alookup a l = some nd)
    (v : List Char) (srcs : List (List Char)) (hv : alookup nd.values v = some srcs) :
    srcs ⊆ nd.clusters :=
  mergeSteps_inv sources n px pj [] InvAgg_nil a ha l nd hl v srcs hv

/-- A concrete two-line JSON-like source for exercising the merge. -/
def pjDemo : PJ := fun _ => some (.dict [("x".data, .str ("1".data))])

def demoSources : List (List Char × List Char) := [("A".data, "\x7b\n\x7d".data)]

/-- Witness for C2 at a concrete merge trace. -/
theorem c2_witness :
    [("x".data, (⟨["A".data], [("1".data, ["A".data])]⟩ : PathNode))] ∈
        mergeSteps 6 pxFail pjDemo [] demoSources ∧
    (["A".data] : List (List Char)) ⊆ ["A".data] :=
  ⟨by decide,
    c2_clusters_superset_invariant 6 pxFail pjDemo demoSources
      [("x".data, ⟨["A".data], [("1".data, ["A".data])]⟩)] (by decide)
      ("x".data) ⟨["A".data], [("1".data, ["A".data])]⟩ (by decide)
      ("1".data) ["A".data] (by decide)⟩

theorem sortEntries_single {β : Type} (x : List Char × β) : sortEntries [x] = [x] := rfl

/-- C1 counterexample: walking a Sequence whose element is a Mapping does
*not* fail — `_do_branch` recurses into the mapping under the `ELEMENT`
marker and records its key/value, returning normally. -/
theorem c1_counterexample :
    do_branch 6 pxFail pjFail ("A".data) (some ("p".data)) [("p".data, ⟨["A".data], []⟩)]
        (.list [.dict [("k".data, .str ("v".data))]]) =
      .ok [("p".data, ⟨["A".data], []⟩),
           ("p : ELEMENT".data, ⟨["A".data], []⟩),
           ("p : ELEMENT : k".data, ⟨["A".data], [("v".data, ["A".data])]⟩)] := by decide

/-- C1 (amended): a Sequence element that is itself a Mapping is walked like
any mapping — the walker registers the `ELEMENT` path, descends into the
mapping's keys under it, and records the scalar values; the walk completes
with `.ok` (no fatal error).  Stated for a one-entry mapping with a plain
scalar value. -/
theorem c1_sequence_mapping_recorded (n : Nat) (px : PX) (pj : PJ)
    (src : List Char) (label : Option (List Char)) (agg : Agg) (k v : List Char)
    (hsniff : sniffXml v = false) (hnl : v.contains '\n' = false) (hne : ¬ v.length < 1) :
    ∃ agg' nd srcs,
      do_branch (n + 5) px pj src label agg (.list [.dict [(k, .str v)]]) = .ok agg' ∧
      alookup agg' (extendLabel (some (extendLabel label elementSeg)) (cleanKey k)) =
        some nd ∧
      src ∈ nd.clusters ∧
      alookup nd.values (cleanVal v) = some srcs ∧ src ∈ srcs := by
  obtain ⟨nd2, hnd2, hmem2⟩ :=
    chk_label_self (chk_label agg (extendLabel label elementSeg) src)
      (extendLabel (some (extendLabel label elementSeg)) (cleanKey k)) src
  obtain ⟨agg3, nd3, srcs3, hdpt, hl3, hcl3, hv3, hs3, _⟩ :=
    dpt_record src (extendLabel (some (extendLabel label elementSeg)) (cleanKey k))
      (chk_label (chk_label agg (extendLabel label elementSeg) src)
        (extendLabel (some (extendLabel label elementSeg)) (cleanKey k)) src) nd2 v hnd2 hne
  refine ⟨agg3, nd3, srcs3, ?_, hl3, ?_, hv3, hs3⟩
  · simp only [do_branch, run, sortEntries_single, hsniff, hnl, Bool.false_eq_true,
      if_false, hdpt]
  · rw [hcl3]
    exact hmem2

/-- Witness for the amended C1 theorem at a concrete input. -/
theorem c1_witness :
    sniffXml ("v".data) = false ∧ ("v".data).contains '\n' = false ∧ ¬ ("v".data).length < 1 ∧
    ∃ agg' nd srcs,
      do_branch 5 pxFail pjFail ("A".data) (some ("p".data)) [("p".data, ⟨["A".data], []⟩)]
          (.list [.dict [("k".data, .str ("v".data))]]) = .ok agg' ∧
      alookup agg' (extendLabel (some (extendLabel (some ("p".data)) elementSeg))
        (cleanKey ("k".data))) = some nd ∧
      ("A".data) ∈ nd.clusters ∧
      alookup nd.values (cleanVal ("v".data)) = some srcs ∧ ("A".data) ∈ srcs :=
  ⟨by decide, by decide, by decide,
    c1_sequence_mapping_recorded 0 pxFail pjFail ("A".data) (some ("p".data))
      [("p".data, ⟨["A".data], []⟩)] ("k".data) ("v".data)
      (by decide) (by decide) (by decide)⟩

/-- C3 counterexample: a scalar matching the markup sniff pattern whose
markup parse fails makes the walk abort with the parse error — `_do_branch`
calls `xmltodict.parse` with no try/except, so nothing falls back to
freeform-text handling.  (`xmltodict` rejects, e.g., the unterminated
document `<a>x`.) -/
theorem c3_counterexample :
    do_branch 3 pxFail pjFail ("A".data) (some ("p".data)) [("p".data, ⟨["A".data], []⟩)]
      (.str ("<a>x".data)) = .error .xmlError := by decide

/-- C3 (amended): the parse-failure fallback exists only for the
serialized-object (JSON) case.  (a) A scalar matching the markup sniff whose
markup parse fails propagates the failure out of the classifier as a fatal
error.  (b) A multi-line scalar not matching the markup sniff whose JSON
parse fails falls back to freeform-text handling: the whole block is
recorded as one plain-text leaf and then handed to the `_do_file` line
parser, with no parse error propagated. -/
theorem c3_parse_fallback_json_only :
    (∀ (n : Nat) (px : PX) (pj : PJ) (src : List Char) (label : Option (List Char))
        (agg : Agg) (s : List Char), sniffXml s = true → px s = .error () →
        do_branch (n + 1) px pj src label agg (.str s) = .error .xmlError) ∧
    (∀ (n : Nat) (px : PX) (pj : PJ) (src : List Char) (label : Option (List Char))
        (agg : Agg) (s : List Char), sniffXml s = false → s.contains '\n' = true →
        pj s = none →
        do_branch (n + 1) px pj src label agg (.str s) =
          match do_plain_text src label agg s with
          | .error e => .error e
          | .ok agg1 =>
            run px pj src n agg1 (.fileLines label (splitChar '\n' (subBackslashNl s)) [])) := by
  constructor
  · intro n px pj src label agg s hs hpx
    simp only [do_branch, run, hs, if_true, hpx]
  · intro n px pj src label agg s hs hnl hpj
    simp only [do_branch, run, hs, Bool.false_eq_true, if_false, hnl, if_true, hpj]

/-- Witness for the amended C3 theorem: the markup half at a concrete input. -/
theorem c3_witness :
    sniffXml ("<a>x".data) = true ∧ pxFail ("<a>x".data) = .error () ∧
    do_branch 1 pxFail pjFail ("A".data) none [] (.str ("<a>x".data)) = .error .xmlError :=
  ⟨by decide, rfl,
    c3_parse_fallback_json_only.1 0 pxFail pjFail ("A".data) none [] ("<a>x".data)
      (by decide) rfl⟩

/-- C4 counterexample: the freeform block `a=1,` newline `  b=2` processed at
path `p` produces *no* `ELEMENT` leaves at all — no continuation is
triggered, so no comma-list split happens. -/
theorem c4_counterexample :
    Except.map (fun a => alookup a ("p : ELEMENT".data))
      (do_file 8 pxFail pjFail ("A".data) (some ("p".data))
        [("p".data, ⟨["A".data], []⟩)] ("a=1,\n  b=2".data)) = .ok none := by decide

/-- C4 (amended): in the block `a=1,` newline `  b=2` neither physical line
ends in a trailing backslash, so each line is parsed separately as an
assignment: the parser records the mapping leaves `a → "1,"` (the comma stays
in the value) and `b → "2"` under `p : a` and `p : b`; no `ELEMENT` leaf is
produced.  A literal backslash-newline between the lines changes nothing:
`_do_file` first rewrites backslash-newline to a plain newline ("for clean
splitting"), separating the lines rather than joining them. -/
theorem c4_freeform_block_result :
    do_file 8 pxFail pjFail ("A".data) (some ("p".data)) [("p".data, ⟨["A".data], []⟩)]
        ("a=1,\n  b=2".data) =
      .ok [("p".data, ⟨["A".data], []⟩),
           ("p : a".data, ⟨["A".data], [("1,".data, ["A".data])]⟩),
           ("p : b".data, ⟨["A".data], [("2".data, ["A".data])]⟩)] ∧
    do_file 8 pxFail pjFail ("A".data) (some ("p".data)) [("p".data, ⟨["A".data], []⟩)]
        ("a=1,\\\n  b=2".data) =
      .ok [("p".data, ⟨["A".data], []⟩),
           ("p : a".data, ⟨["A".data], [("1,".data, ["A".data])]⟩),
           ("p : b".data, ⟨["A".data], [("2".data, ["A".data])]⟩)] := by
  exact ⟨by decide, by decide⟩

/-- C5 counterexample: for the line `aequalsequalsb=c` (which contains a
single `=`), the claim's split-at-first-`=` reading predicts the mapping key
`aequalsequalsb`; the code instead records the key as `a==b`, because the
protective sentinel text `equalsequals` is rewritten back to `==` in both
halves after the split. -/
theorem c5_counterexample :
    Except.map
      (fun a => (alookup a ("p : aequalsequalsb".data), alookup a ("p : a==b".data)))
      (do_file 6 pxFail pjFail ("A".data) (some ("p".data))
        [("p".data, ⟨["A".data], []⟩)] ("aequalsequalsb=c".data)) =
      .ok (none, some ⟨["A".data], [("c".data, ["A".data])]⟩) := by decide

/-- C5 (amended): non-continuation freeform lines are split at the first `=`
*remaining after* each literal `==` is rewritten to the sentinel text
`equalsequals`; afterwards every occurrence of the sentinel in either half is
rewritten to `==` (so a literal `equalsequals` in the input is also rendered
as `==`).  In particular `flag==true` is recorded as a single plain-text leaf
at the current path, `flag=true` as the mapping leaf `flag → true`, and
`aequalsequalsb=c` as the mapping leaf `a==b → c`; a line with no `=` outside
literal `==` pairs is always handed on as a plain-text leaf (no split). -/
theorem c5_eq_split_behavior :
    (Except.map (fun a => alookup a ("p".data))
        (do_file 6 pxFail pjFail ("A".data) (some ("p".data))
          [("p".data, ⟨["A".data], []⟩)] ("flag==true".data)) =
      .ok (some ⟨["A".data], [("flag==true".data, ["A".data])]⟩)) ∧
    (Except.map (fun a => alookup a ("p : flag".data))
        (do_file 6 pxFail pjFail ("A".data) (some ("p".data))
          [("p".data, ⟨["A".data], []⟩)] ("flag=true".data)) =
      .ok (some ⟨["A".data], [("true".data, ["A".data])]⟩)) ∧
    (Except.map (fun a => alookup a ("p : a==b".data))
        (do_file 6 pxFail pjFail ("A".data) (some ("p".data))
          [("p".data, ⟨["A".data], []⟩)] ("aequalsequalsb=c".data)) =
      .ok (some ⟨["A".data], [("c".data, ["A".data])]⟩)) ∧
    (∀ (n : Nat) (px : PX) (pj : PJ) (src : List Char) (label : Option (List Char))
        (agg : Agg) (line : List Char) (rest : List (List Char)),
      isComment line = false → hasCont line = false → ¬ (lstripWs line).length = 0 →
      (subEq (stripExport (lstripWs line))).contains '=' = false →
      run px pj src (n + 1) agg (.fileLines label (line :: rest) []) =
        match run px pj src n agg (.branch label (.str (stripExport (lstripWs line)))) with
        | .error e => .error e
        | .ok a1 => run px pj src n a1 (.fileLines label rest [])) := by
  refine ⟨by decide, by decide, by decide, ?_⟩
  intro n px pj src label agg line rest hc hcont hl1 he
  simp only [run, hc, hcont, Bool.false_eq_true, if_false, List.length_nil, gt_iff_lt,
    Nat.lt_irrefl, if_neg hl1, he]

/-- Witness for the no-split clause of the amended C5 theorem. -/
theorem c5_witness :
    isComment ("hello".data) = false ∧ hasCont ("hello".data) = false ∧
    ¬ (lstripWs ("hello".data)).length = 0 ∧
    (subEq (stripExport (lstripWs ("hello".data)))).contains '=' = false ∧
    run pxFail pjFail ("A".data) 3 [("p".data, ⟨["A".data], []⟩)]
        (.fileLines (some ("p".data)) ["hello".data] []) =
      match run pxFail pjFail ("A".data) 2 [("p".data, ⟨["A".data], []⟩)]
          (.branch (some ("p".data)) (.str (stripExport (lstripWs ("hello".data))))) with
      | .error e => .error e
      | .ok a1 => run pxFail pjFail ("A".data) 2 a1 (.fileLines (some ("p".data)) [] []) :=
  ⟨by decide, by decide, by decide, by decide,
    c5_eq_split_behavior.2.2.2 2 pxFail pjFail ("A".data) (some ("p".data))
      [("p".data, ⟨["A".data], []⟩)] ("hello".data) [] (by decide) (by decide)
      (by decide) (by decide)⟩

theorem length_eq_iff_same_mem {details configs : List (List Char)}
    (hnd : details.Nodup) (hnc : configs.Nodup) (hsub : details ⊆ configs) :
    details.length = configs.length ↔ ∀ x, x ∈ details ↔ x ∈ configs := by
  constructor
  · intro hlen
    have hperm := (List.subperm_of_subset hnd hsub).perm_of_length_le (le_of_eq hlen.symm)
    exact fun x => hperm.mem_iff
  · intro hmem
    have hsub2 : configs ⊆ details := fun x hx => (hmem x).mpr hx
    exact Nat.le_antisymm (List.subperm_of_subset hnd hsub).length_le
      (List.subperm_of_subset hnc hsub2).length_le

/-- C6: for duplicate-free row source-sets drawn from the duplicate-free full
config list, `_skip_line` suppresses a row in default mode exactly when the
row's source set equals the full source set, suppresses it in same-only mode
exactly when the set differs, and suppresses nothing in verbose mode. -/
theorem c6_display_modes (same verbose : Bool) (details configs : List (List Char))
    (hnd : details.Nodup) (hnc : configs.Nodup) (hsub : details ⊆ configs) :
    (same = false → verbose = false →
      (skip_line same verbose details configs = true ↔ ∀ x, x ∈ details ↔ x ∈ configs)) ∧
    (same = true →
      (skip_line same verbose details configs = true ↔
        ¬ ∀ x, x ∈ details ↔ x ∈ configs)) ∧
    (verbose = true → same = false → skip_line same verbose details configs = false) := by
  refine ⟨?_, ?_, ?_⟩
  · intro hs hv
    subst hs; subst hv
    simp only [skip_line, Bool.false_eq_true, if_false, beq_iff_eq]
    exact length_eq_iff_same_mem hnd hnc hsub
  · intro hs
    subst hs
    simp only [skip_line, if_true, bne_iff_ne, ne_eq]
    exact not_congr (length_eq_iff_same_mem hnd hnc hsub)
  · intro hv hs
    subst hs; subst hv
    simp [skip_line]

/-- Witness for C6 at a concrete singleton row inside a two-config run. -/
theorem c6_witness :
    ([("A".data)] : List (List Char)).Nodup ∧
    ([("A".data), ("B".data)] : List (List Char)).Nodup ∧
    ([("A".data)] : List (List Char)) ⊆ [("A".data), ("B".data)] ∧
    (false = false → false = false →
      (skip_line false false [("A".data)] [("A".data), ("B".data)] = true ↔
        ∀ x, x ∈ [("A".data)] ↔ x ∈ [("A".data), ("B".data)])) :=
  ⟨by decide, by decide, by decide,
    (c6_display_modes false false [("A".data)] [("A".data), ("B".data)]
      (by decide) (by decide) (by decide)).1⟩

/-- C7: an include pattern (if set) suppresses a row exactly when it does not
match the row's path string, an exclude pattern (if set) suppresses a row
exactly when it matches, `_skip_value` is exactly the disjunction of the two
tests (so both must pass for a row to be shown, independently of the display
mode arguments), and a matching exclude pattern suppresses the row whatever
the include pattern and display mode are. -/
theorem c7_include_exclude_filters (inc exc : Option Pat) (key : List Char)
    (same verbose : Bool) (thresh : Nat) (configs details : List (List Char)) :
    (skip_include_test inc key = true ↔ ∃ p, inc = some p ∧ p key = false) ∧
    (skip_exclude_test exc key = true ↔ ∃ p, exc = some p ∧ p key = true) ∧
    (skip_value inc exc key = (skip_include_test inc key || skip_exclude_test exc key)) ∧
    (spew_value_differences same verbose thresh configs inc exc key details ≠ none →
      skip_include_test inc key = false ∧ skip_exclude_test exc key = false) ∧
    (∀ p, exc = some p → p key = true →
      spew_value_differences same verbose thresh configs inc exc key details = none) := by
  refine ⟨?_, ?_, rfl, ?_, ?_⟩
  · cases inc with
    | none => simp [skip_include_test]
    | some p => simp [skip_include_test]
  · cases exc with
    | none => simp [skip_exclude_test]
    | some p => simp [skip_exclude_test]
  · intro h
    unfold spew_value_differences at h
    by_cases h1 : skip_line same verbose details configs = true
    · rw [if_pos h1] at h
      exact absurd rfl h
    · rw [if_neg h1] at h
      by_cases h2 : skip_value inc exc key = true
      · rw [if_pos h2] at h
        exact absurd rfl h
      · have h3 : (skip_include_test inc key || skip_exclude_test exc key) = false :=
          Bool.not_eq_true _ ▸ h2
        exact ⟨(Bool.or_eq_false_iff.mp h3).1, (Bool.or_eq_false_iff.mp h3).2⟩
  · intro p hexc hp
    have h2 : skip_value inc exc key = true := by
      unfold skip_value skip_exclude_test
      rw [hexc]
      show (skip_include_test inc key || p key) = true
      rw [hp, Bool.or_true]
    unfold spew_value_differences
    by_cases h1 : skip_line same verbose details configs = true
    · rw [if_pos h1]
    · rw [if_neg h1, if_pos h2]

/-- Witness for C7 with a concrete substring-style exclude pattern. -/
theorem c7_witness :
    ((some (fun s => decide (s = ("p : v".data))) : Option Pat) =
        some (fun s => decide (s = ("p : v".data)))) ∧
    (fun s => decide (s = ("p : v".data))) ("p : v".data) = true ∧
    spew_value_differences false false 40 [("A".data), ("B".data)] none
      (some (fun s => decide (s = ("p : v".data)))) ("p : v".data) [("A".data)] = none :=
  ⟨rfl, by decide,
    (c7_include_exclude_filters none (some (fun s => decide (s = ("p : v".data))))
      ("p : v".data) false false 40 [("A".data), ("B".data)] [("A".data)]).2.2.2.2
      (fun s => decide (s = ("p : v".data))) rfl (by decide)⟩

theorem chk_label_noop {agg : Agg} {l s : List Char} {nd : PathNode}
    (hnd : alookup agg l = some nd) (hm : s ∈ nd.clusters) :
    chk_label agg l s = agg := by
  unfold chk_label
  rw [hnd]
  exact if_pos hm

/-- C8 counterexample: `_do_plain_text` — the function that records a value —
inserts the source into `values[path][value]` but never into
`clusters[path]`: recording value `v` for source `A` at a path whose
`clusters` list is `[B]` leaves `clusters` equal to `[B]`, without `A`. -/
theorem c8_counterexample :
    Except.map (fun a => alookup a ("p".data))
      (do_plain_text ("A".data) (some ("p".data))
        [("p".data, ⟨["B".data], []⟩)] ("v".data)) =
      .ok (some ⟨["B".data], [("v".data, ["A".data])]⟩) ∧
    ("A".data) ∉ (["B".data] : List (List Char)) := ⟨by decide, by decide⟩

/-- C8 (amended): `_do_plain_text` is a no-op on the empty string; on a
nonempty value at a present path it normalizes the value (`cleanVal`: tabs to
single spaces, embedded newlines to the literal two-character `\n`, then
trimming) and inserts the source into `values[path][normalized]` with set
semantics, leaving `clusters[path]` unchanged — repeating the identical call
changes nothing.  Insertion of the source into `clusters[path]` is performed
separately by `_chk_label` (called by the walker before descending to the
path), which is likewise idempotent. -/
theorem c8_record_contract :
    (∀ (src : List Char) (lab : Option (List Char)) (agg : Agg),
      do_plain_text src lab agg [] = .ok agg) ∧
    (∀ (agg : Agg) (l s : List Char),
      ∃ nd, alookup (chk_label agg l s) l = some nd ∧ s ∈ nd.clusters ∧
        chk_label (chk_label agg l s) l s = chk_label agg l s) ∧
    (∀ (src l : List Char) (agg : Agg) (nd : PathNode) (v : List Char),
      alookup agg l = some nd → ¬ v.length < 1 →
      ∃ agg' nd' srcs, do_plain_text src (some l) agg v = .ok agg' ∧
        alookup agg' l = some nd' ∧ nd'.clusters = nd.clusters ∧
        alookup nd'.values (cleanVal v) = some srcs ∧ src ∈ srcs ∧
        do_plain_text src (some l) agg' v = .ok agg') := by
  refine ⟨dpt_empty, ?_, dpt_record⟩
  intro agg l s
  obtain ⟨nd, hnd, hm⟩ := chk_label_self agg l s
  exact ⟨nd, hnd, hm, chk_label_noop hnd hm⟩

/-- Witness for the amended C8 theorem at a concrete nonempty value. -/
theorem c8_witness :
    alookup [(("p".data), (⟨["A".data], []⟩ : PathNode))] ("p".data) =
      some ⟨["A".data], []⟩ ∧
    ¬ (("v".data).length < 1) ∧
    ∃ agg' nd' srcs,
      do_plain_text ("A".data) (some ("p".data)) [(("p".data), ⟨["A".data], []⟩)]
          ("v".data) = .ok agg' ∧
      alookup agg' ("p".data) = some nd' ∧
      nd'.clusters = (⟨["A".data], []⟩ : PathNode).clusters ∧
      alookup nd'.values (cleanVal ("v".data)) = some srcs ∧ ("A".data) ∈ srcs ∧
      do_plain_text ("A".data) (some ("p".data)) agg' ("v".data) = .ok agg' :=
  ⟨by decide, by decide,
    c8_record_contract.2.2 ("A".data) ("p".data) [(("p".data), ⟨["A".data], []⟩)]
      ⟨["A".data], []⟩ ("v".data) (by decide) (by decide)⟩

/-- C9 counterexample: the renderer derives the displayed value by splitting
the row key on `" : "` and taking the last segment, so a short recorded value
that itself contains `" : "` — here `a : b` at path `p` — never appears
verbatim in any column: the row's tab-separated columns are
`p : a`, `b`, and the presence markers. -/
theorem c9_counterexample :
    splitChar '\t' (spew_value_line 40 [("A".data), ("B".data)] ("p : a : b".data)
        [("A".data)]) =
      [("p : a".data), ("b".data), (" X ".data), (" - ".data)] ∧
    ¬ (("a : b".data) ∈ splitChar '\t' (spew_value_line 40 [("A".data), ("B".data)]
        ("p : a : b".data) [("A".data)])) := ⟨by decide, by decide⟩

/-- C9 (amended): writing `value` for the left-stripped last `" : "`-segment
of the row key (which equals the recorded value only when that value contains
no `" : "`): if `value` is no longer than the threshold it is rendered once,
verbatim, with no trailing column; if it is longer, the value column is at
most `threshold - 1` characters of the comment-stripped short form followed
by the ellipsis marker (plus a closing quote when the truncation opens an
unterminated quote), and `value` is appended verbatim as a trailing column
after the presence columns. -/
theorem c9_short_value_rendering (thresh : Nat) (configs : List (List Char))
    (key : List Char) (details : List (List Char)) :
    (¬ (lstripWs ((splitColon key).getLastD [])).length > thresh →
      spew_value_line thresh configs key details =
        joinColon (splitColon key).dropLast ++ '\t' ::
          lstripWs ((splitColon key).getLastD []) ++ get_spew_line configs details) ∧
    ((lstripWs ((splitColon key).getLastD [])).length > thresh →
      (∃ s, s.length ≤ thresh - 1 ∧
        shortColumn thresh (lstripWs ((splitColon key).getLastD [])) =
          s ++ ' ' :: '.' :: '.' :: '.' :: ' ' :: (if quoteFix s then ['"'] else [])) ∧
      spew_value_line thresh configs key details =
        joinColon (splitColon key).dropLast ++ '\t' ::
          shortColumn thresh (lstripWs ((splitColon key).getLastD [])) ++
          get_spew_line configs details ++ '\t' ::
          lstripWs ((splitColon key).getLastD [])) := by
  constructor
  · intro hle
    simp only [spew_value_line]
    rw [if_neg hle]
  · intro hgt
    refine ⟨⟨(shortFormOf (lstripWs ((splitColon key).getLastD []))).take (thresh - 1),
      ?_, rfl⟩, ?_⟩
    · rw [List.length_take]
      exact min_le_left _ _
    · simp only [spew_value_line]
      rw [if_pos hgt]

/-- Witness for the amended C9 theorem: a short value rendered verbatim. -/
theorem c9_witness :
    ¬ (lstripWs ((splitColon ("p : v".data)).getLastD [])).length > 40 ∧
    spew_value_line 40 [("A".data)] ("p : v".data) [("A".data)] =
      joinColon (splitColon ("p : v".data)).dropLast ++ '\t' ::
        lstripWs ((splitColon ("p : v".data)).getLastD []) ++
        get_spew_line [("A".data)] [("A".data)] :=
  ⟨by decide,
    (c9_short_value_rendering 40 [("A".data)] ("p : v".data) [("A".data)]).1 (by decide)⟩

/-- C10: value rows are filtered on the full row key — the canonical path
extended with the value as its last `" : "`-separated segment — not on the
path alone: an exclude pattern that matches the full key (here, one that does
not match the path itself) suppresses the value row for every display mode
and every include pattern, and an include pattern matching the full key
passes the include test. -/
theorem c10_filters_match_full_row_key (same verbose : Bool) (thresh : Nat)
    (configs : List (List Char)) (inc : Option Pat) (p : Pat)
    (path value : List Char) (details : List (List Char))
    (hfull : p (extendLabel (some path) value) = true)
    (_hpath : p path = false) :
    spew_value_differences same verbose thresh configs inc (some p)
      (extendLabel (some path) value) details = none ∧
    (∀ q : Pat, q (extendLabel (some path) value) = true →
      skip_include_test (some q) (extendLabel (some path) value) = false) := by
  constructor
  · have h2 : skip_value inc (some p) (extendLabel (some path) value) = true := by
      unfold skip_value skip_exclude_test
      show (skip_include_test inc (extendLabel (some path) value) ||
        p (extendLabel (some path) value)) = true
      rw [hfull, Bool.or_true]
    unfold spew_value_differences
    by_cases h1 : skip_line same verbose details configs = true
    · rw [if_pos h1]
    · rw [if_neg h1, if_pos h2]
  · intro q hq
    show (!q (extendLabel (some path) value)) = false
    rw [hq]
    rfl

/-- Witness for C10: an exclude pattern matching only the full row key. -/
theorem c10_witness :
    (fun s => decide (s = ("p : secret".data))) (extendLabel (some ("p".data))
      ("secret".data)) = true ∧
    (fun s => decide (s = ("p : secret".data))) ("p".data) = false ∧
    spew_value_differences false false 40 [("A".data), ("B".data)] none
      (some (fun s => decide (s = ("p : secret".data))))
      (extendLabel (some ("p".data)) ("secret".data)) [("A".data)] = none :=
  ⟨by decide, by decide,
    (c10_filters_match_full_row_key false false 40 [("A".data), ("B".data)] none
      (fun s => decide (s = ("p : secret".data))) ("p".data) ("secret".data)
      [("A".data)] (by decide) (by decide)).1⟩
